import Mathlib

/-!
Verification of the gamefriend Guide Content Pipeline.

This file gives a shallow embedding, in Lean 4, of the pure core of the
gamefriend repository (chunking, retrieval-result assembly, persistence
round-trip, context formatting, pagination arithmetic, fuzzy game-name
matching, and HTML guide-content extraction), together with theorems that
settle a list of specification claims against that embedding.

Strings are modelled as `List Char` (named `Str` below), which matches
Python's character-sequence view of `str` (one entry per code point) and
keeps every definition executable by the kernel.
-/

abbrev Str := List Char

namespace GF

/-! ## Python string primitives

These model the exact Python `str` operations used by the repository:
`str.strip()`, `str.split("\n\n")`, `str.lower()`, `str.replace`,
substring containment (`in`), and `"sep".join(...)`. -/

/-- The characters Python's `str.strip()` removes: space, tab, newline,
carriage return, vertical tab, form feed. -/
def isPySpace (c : Char) : Bool :=
  c = ' ' || c = '\t' || c = '\n' || c = '\r' || c = Char.ofNat 11 || c = Char.ofNat 12

/-- Python `str.strip()`: drop leading and trailing whitespace. -/
def pyStrip (s : Str) : Str :=
  ((s.dropWhile isPySpace).reverse.dropWhile isPySpace).reverse

/-- Helper for `pySplitParas`: Python `str.split("\n\n")`, scanning left to
right for non-overlapping occurrences of the separator.  `acc` holds the
characters of the current piece in reverse. -/
def splitDD (acc : Str) : Str → List Str
  | '\n' :: '\n' :: rest => acc.reverse :: splitDD [] rest
  | c :: rest => splitDD (c :: acc) rest
  | [] => [acc.reverse]

/-- Python `text.split("\n\n")`. -/
def pySplitParas (s : Str) : List Str := splitDD [] s

/-- `[p.strip() for p in text.split("\n\n") if p.strip()]`
(embeddings_manager.py line 79): the non-empty stripped blank-line-delimited
paragraphs of a text. -/
def pyParagraphs (s : Str) : List Str :=
  ((pySplitParas s).map pyStrip).filter (fun p => p ≠ [])

/-- Python `str.lower()` (the repository only lower-cases ASCII names). -/
def pyLower (s : Str) : Str := s.map Char.toLower

/-- Python `name.lower().replace(" ", "-")`: the game-id normalization used
for cache keys, persistence file names and fuzzy matching. -/
def normalizeName (s : Str) : Str :=
  (pyLower s).map (fun c => if c = ' ' then '-' else c)

/-- Python substring containment `needle in hay` (contiguous substring;
the empty string is contained in everything). -/
def strContains (hay needle : Str) : Bool :=
  match hay with
  | [] => List.isPrefixOf needle []
  | _ :: rest => List.isPrefixOf needle hay || strContains rest needle

/-- Python `"\n\n".join(parts)` (used to join a chunk's paragraphs). -/
def join2NL : List Str → Str
  | [] => []
  | [p] => p
  | p :: q :: rest => p ++ '\n' :: '\n' :: join2NL (q :: rest)

/-- Python `"\n".join(parts)` (used to join formatted context blocks). -/
def join1NL : List Str → Str
  | [] => []
  | [p] => p
  | p :: q :: rest => p ++ '\n' :: join1NL (q :: rest)

/-! ## Chunker (`EmbeddingsManager._chunk_text`, embeddings_manager.py 68-120)

The chunker splits a text into non-empty stripped paragraphs, then greedily
accumulates paragraphs into chunks bounded by `chunk_size` characters
(paragraph lengths only; the `"\n\n"` joiners are not counted), carrying the
last `chunk_overlap` paragraphs of an emitted chunk into the next one. -/

/-- The chunking configuration of `EmbeddingsManager.__init__`:
`chunk_size` (default 500) and `chunk_overlap` (default 50). -/
structure ChunkCfg where
  chunk_size : Nat
  chunk_overlap : Nat
deriving DecidableEq, Repr

/-- A chunk dictionary as built by `_chunk_text`: `text` is
`"\n\n".join(current_chunk)`, `start_idx` is the running paragraph counter,
`end_idx` is `start_idx + len(text)`, and `paragraphs` is
`list(range(current_start, current_start + len(current_chunk)))`.
The `paras` field additionally records the paragraph list itself (the
joined `text` is exactly `join2NL paras`). -/
structure Chunk where
  text : Str
  source : Str
  start_idx : Nat
  end_idx : Nat
  paragraphs : List Nat
  paras : List Str
deriving DecidableEq, Repr

/-- Build the chunk dictionary appended by `_chunk_text`. -/
def mkChunk (source : Str) (start : Nat) (current : List Str) : Chunk :=
  { text := join2NL current
    source := source
    start_idx := start
    end_idx := start + (join2NL current).length
    paragraphs := List.range' start current.length
    paras := current }

@[simp] theorem mkChunk_paras (source : Str) (start : Nat) (cur : List Str) :
    (mkChunk source start cur).paras = cur := rfl

@[simp] theorem mkChunk_text (source : Str) (start : Nat) (cur : List Str) :
    (mkChunk source start cur).text = join2NL cur := rfl

/-- The loop state of `_chunk_text`: emitted chunks, the accumulating
`current_chunk`, its `current_length` and the paragraph counter
`current_start`. -/
structure ChunkState where
  chunks : List Chunk
  current : List Str
  currentLen : Nat
  currentStart : Nat

/-- One iteration of the `for paragraph in paragraphs` loop of
`_chunk_text`: if adding the paragraph would exceed `chunk_size` and the
accumulator is non-empty, emit the accumulator as a chunk and restart it
from the last `chunk_overlap` paragraphs; then append the paragraph. -/
def chunkStep (cfg : ChunkCfg) (source : Str) (st : ChunkState) (p : Str) : ChunkState :=
  if st.currentLen + p.length > cfg.chunk_size ∧ st.current ≠ [] then
    -- `overlap_start = max(0, len(current_chunk) - chunk_overlap)` is Nat
    -- truncated subtraction; `kept = current_chunk[overlap_start:]`.
    { chunks := st.chunks ++ [mkChunk source st.currentStart st.current]
      current := st.current.drop (st.current.length - cfg.chunk_overlap) ++ [p]
      currentLen := ((st.current.drop (st.current.length - cfg.chunk_overlap)).map
        List.length).sum + p.length
      currentStart := st.currentStart + (st.current.length - cfg.chunk_overlap) }
  else
    { st with current := st.current ++ [p], currentLen := st.currentLen + p.length }

/-- The trailing `if current_chunk:` emission of `_chunk_text`. -/
def chunkFinal (source : Str) (st : ChunkState) : List Chunk :=
  if st.current ≠ [] then st.chunks ++ [mkChunk source st.currentStart st.current]
  else st.chunks

/-- `EmbeddingsManager._chunk_text(text, source)`. -/
def chunkText (cfg : ChunkCfg) (text source : Str) : List Chunk :=
  chunkFinal source ((pyParagraphs text).foldl (chunkStep cfg source) ⟨[], [], 0, 0⟩)

/-! ### Chunker reconstruction and bound lemmas -/

/-- Total character count of a list of paragraphs (no separators). -/
def sumLens (l : List Str) : Nat := (l.map List.length).sum

/-- Paragraph position one past the end of the last chunk of a list
(`d` when the list is empty). -/
def endOf (d : Nat) : List Chunk → Nat
  | [] => d
  | c :: cs => endOf (c.start_idx + c.paras.length) cs

/-- Concatenate a chunk list while dropping, from each chunk, the
paragraphs it shares with the chunks before it: `prevEnd` is the paragraph
position one past the end of the previous chunk, so
`prevEnd - c.start_idx` is the length of `c`'s overlapping prefix. -/
def reconFrom (prevEnd : Nat) : List Chunk → List Str
  | [] => []
  | c :: cs => c.paras.drop (prevEnd - c.start_idx) ++ reconFrom (c.start_idx + c.paras.length) cs

/-- Concatenation of a chunk list with each non-first chunk's overlapping
prefix paragraphs removed. -/
def reconstruct (cs : List Chunk) : List Str := reconFrom 0 cs

theorem reconFrom_append (d : Nat) (xs ys : List Chunk) :
    reconFrom d (xs ++ ys) = reconFrom d xs ++ reconFrom (endOf d xs) ys := by
  induction xs generalizing d with
  | nil => simp [reconFrom, endOf]
  | cons c cs ih => simp [reconFrom, endOf, ih, List.append_assoc]

theorem endOf_append (d : Nat) (xs ys : List Chunk) :
    endOf d (xs ++ ys) = endOf (endOf d xs) ys := by
  induction xs generalizing d with
  | nil => simp [endOf]
  | cons c cs ih => simp [endOf, ih]

/-- The invariant tying the chunker loop state to the paragraphs already
consumed: closing the state now would reconstruct exactly `processed`. -/
def ReconInv (source : Str) (processed : List Str) (st : ChunkState) : Prop :=
  reconFrom 0 (chunkFinal source st) = processed
  ∧ endOf 0 st.chunks ≤ st.currentStart + st.current.length
  ∧ (st.current = [] → st.chunks = [] ∧ st.currentStart = 0)

@[simp] theorem reconFrom_nil (d : Nat) : reconFrom d [] = [] := rfl

@[simp] theorem reconFrom_cons (d : Nat) (c : Chunk) (cs : List Chunk) :
    reconFrom d (c :: cs) =
      c.paras.drop (d - c.start_idx) ++ reconFrom (c.start_idx + c.paras.length) cs := rfl

@[simp] theorem endOf_nil (d : Nat) : endOf d [] = d := rfl

@[simp] theorem endOf_cons (d : Nat) (c : Chunk) (cs : List Chunk) :
    endOf d (c :: cs) = endOf (c.start_idx + c.paras.length) cs := rfl

theorem reconInv_step (cfg : ChunkCfg) (source : Str) (processed : List Str)
    (st : ChunkState) (p : Str) (h : ReconInv source processed st) :
    ReconInv source (processed ++ [p]) (chunkStep cfg source st p) := by
  obtain ⟨h1, h2, h3⟩ := h
  unfold chunkStep
  split
  case isTrue hcond =>
    obtain ⟨-, hne⟩ := hcond
    have hfin : chunkFinal source st = st.chunks ++ [mkChunk source st.currentStart st.current] := by
      simp [chunkFinal, hne]
    refine ⟨?_, ?_, ?_⟩
    · have hnew : (st.current.drop (st.current.length - cfg.chunk_overlap) ++ [p]) ≠ [] := by
        simp
      simp only [chunkFinal, ne_eq, hnew, not_false_iff, if_pos]
      rw [reconFrom_append, ← hfin, h1]
      have hE : endOf 0 (chunkFinal source st) = st.currentStart + st.current.length := by
        rw [hfin, endOf_append]
        simp [mkChunk]
      rw [hE]
      simp only [reconFrom_cons, reconFrom_nil, mkChunk, List.append_nil]
      have hsub : st.currentStart + st.current.length -
          (st.currentStart + (st.current.length - cfg.chunk_overlap))
          = (st.current.drop (st.current.length - cfg.chunk_overlap)).length := by
        simp only [List.length_drop]
        omega
      rw [hsub, List.drop_left]
    · simp only [chunkFinal]
      rw [endOf_append]
      simp only [endOf_cons, endOf_nil, mkChunk, List.length_append, List.length_drop,
        List.length_cons, List.length_nil]
      omega
    · intro hemp
      exact absurd hemp (by simp)
  case isFalse hcond =>
    refine ⟨?_, ?_, ?_⟩
    · have hnew : st.current ++ [p] ≠ [] := by simp
      simp only [chunkFinal, ne_eq, hnew, not_false_iff, if_pos]
      rw [reconFrom_append]
      by_cases hcur : st.current = []
      · obtain ⟨hch, hst⟩ := h3 hcur
        have hproc : processed = [] := by
          rw [← h1]
          simp [chunkFinal, hcur, hch]
        subst hproc
        simp [hch, hcur, hst, mkChunk]
      · have hfin : chunkFinal source st
            = st.chunks ++ [mkChunk source st.currentStart st.current] := by
          simp [chunkFinal, hcur]
        have hple : endOf 0 st.chunks - st.currentStart ≤ st.current.length := by
          omega
        rw [← h1, hfin, reconFrom_append]
        simp only [reconFrom_cons, reconFrom_nil, mkChunk, List.append_nil]
        rw [List.drop_append_of_le_length hple, List.append_assoc]
    · simp only [List.length_append, List.length_cons, List.length_nil]
      omega
    · intro hemp
      exact absurd hemp (by simp)

theorem reconInv_foldl (cfg : ChunkCfg) (source : Str) (ps : List Str)
    (processed : List Str) (st : ChunkState) (h : ReconInv source processed st) :
    ReconInv source (processed ++ ps) (ps.foldl (chunkStep cfg source) st) := by
  induction ps generalizing processed st with
  | nil => simpa using h
  | cons p rest ih =>
    have := ih (processed ++ [p]) (chunkStep cfg source st p) (reconInv_step cfg source processed st p h)
    simpa using this

/-! ### Overlap-carry machinery (for the chunk-to-chunk overlap law) -/

/-- Relation between consecutive chunks: the second chunk's paragraph list
begins with the last `chunk_overlap` paragraphs of the first. -/
def overlapCarried (cfg : ChunkCfg) (c cNext : Chunk) : Prop :=
  List.isPrefixOf (c.paras.drop (c.paras.length - cfg.chunk_overlap)) cNext.paras = true

instance (cfg : ChunkCfg) (c cNext : Chunk) : Decidable (overlapCarried cfg c cNext) := by
  unfold overlapCarried; infer_instance

/-- Loop invariant for the overlap-carry law: emitted chunks form an
`overlapCarried` chain and the accumulator still starts with the carry of
the most recently emitted chunk. -/
def OvInv (cfg : ChunkCfg) (st : ChunkState) : Prop :=
  List.Chain' (overlapCarried cfg) st.chunks
  ∧ (∀ c, st.chunks.getLast? = some c → st.current ≠ [] →
      List.isPrefixOf (c.paras.drop (c.paras.length - cfg.chunk_overlap)) st.current = true)
  ∧ (st.current = [] → st.chunks = [])

theorem ovInv_step (cfg : ChunkCfg) (source : Str) (st : ChunkState) (p : Str)
    (h : OvInv cfg st) : OvInv cfg (chunkStep cfg source st p) := by
  obtain ⟨h1, h2, h3⟩ := h
  unfold chunkStep
  split
  case isTrue hcond =>
    obtain ⟨-, hne⟩ := hcond
    refine ⟨?_, ?_, ?_⟩
    · show List.Chain' (overlapCarried cfg)
        (st.chunks ++ [mkChunk source st.currentStart st.current])
      rw [List.chain'_append]
      refine ⟨h1, List.chain'_singleton _, ?_⟩
      intro x hx y hy
      simp only [List.head?_cons, Option.mem_def, Option.some.injEq] at hy
      subst hy
      exact h2 x hx hne
    · show ∀ c, (st.chunks ++ [mkChunk source st.currentStart st.current]).getLast? = some c → _
      intro c hc
      simp only [List.getLast?_concat, Option.some.injEq] at hc
      subst hc
      intro _
      rw [List.isPrefixOf_iff_prefix]
      exact List.prefix_append _ _
    · intro hemp
      exact absurd hemp (by simp)
  case isFalse hcond =>
    refine ⟨h1, ?_, ?_⟩
    · intro c hc hne2
      by_cases hcur : st.current = []
      · have := h3 hcur
        rw [this] at hc
        simp at hc
      · have hpre := h2 c hc hcur
        rw [List.isPrefixOf_iff_prefix] at hpre ⊢
        exact hpre.trans (List.prefix_append _ _)
    · intro hemp
      exact absurd hemp (by simp)

theorem ovInv_foldl (cfg : ChunkCfg) (source : Str) (ps : List Str)
    (st : ChunkState) (h : OvInv cfg st) :
    OvInv cfg (ps.foldl (chunkStep cfg source) st) := by
  induction ps generalizing st with
  | nil => exact h
  | cons p rest ih => exact ih _ (ovInv_step cfg source st p h)

theorem ovInv_final (cfg : ChunkCfg) (source : Str) (st : ChunkState)
    (h : OvInv cfg st) : List.Chain' (overlapCarried cfg) (chunkFinal source st) := by
  obtain ⟨h1, h2, -⟩ := h
  unfold chunkFinal
  split
  case isTrue hne =>
    rw [List.chain'_append]
    refine ⟨h1, List.chain'_singleton _, ?_⟩
    intro x hx y hy
    simp only [List.head?_cons, Option.mem_def, Option.some.injEq] at hy
    subst hy
    exact h2 x hx hne
  case isFalse => exact h1

/-! ### Size-bound machinery (for the chunk-size law) -/

@[simp] theorem sumLens_nil : sumLens [] = 0 := rfl

@[simp] theorem sumLens_cons (p : Str) (l : List Str) :
    sumLens (p :: l) = p.length + sumLens l := by
  simp [sumLens]

@[simp] theorem sumLens_append (l₁ l₂ : List Str) :
    sumLens (l₁ ++ l₂) = sumLens l₁ + sumLens l₂ := by
  simp [sumLens]

theorem sumLens_le (L : Nat) (l : List Str) (h : ∀ x ∈ l, x.length ≤ L) :
    sumLens l ≤ l.length * L := by
  induction l with
  | nil => simp
  | cons p rest ih =>
    have hp := h p (by simp)
    have hr := ih (fun x hx => h x (by simp [hx]))
    simp only [sumLens_cons, List.length_cons]
    calc p.length + sumLens rest ≤ L + rest.length * L := by omega
      _ = (rest.length + 1) * L := by ring

theorem join2NL_length (l : List Str) (h : l ≠ []) :
    (join2NL l).length + 2 = sumLens l + 2 * l.length := by
  induction l with
  | nil => exact absurd rfl h
  | cons p rest ih =>
    cases rest with
    | nil => simp [join2NL]
    | cons q rest2 =>
      have := ih (by simp)
      simp only [join2NL, List.length_append, List.length_cons, sumLens_cons] at this ⊢
      omega

/-- Loop invariant for the size bound: the accumulator's character count
matches `current_length` and stays within `chunk_size`, and every emitted
chunk satisfies the bound. -/
def LenInv (cfg : ChunkCfg) (L : Nat) (st : ChunkState) : Prop :=
  (∀ p ∈ st.current, p.length ≤ L)
  ∧ st.currentLen = sumLens st.current
  ∧ st.currentLen ≤ cfg.chunk_size
  ∧ (∀ c ∈ st.chunks, sumLens c.paras ≤ cfg.chunk_size ∧ c.paras ≠ [] ∧ c.text = join2NL c.paras)

theorem lenInv_step (cfg : ChunkCfg) (source : Str) (L : Nat) (st : ChunkState) (p : Str)
    (hL : (cfg.chunk_overlap + 1) * L ≤ cfg.chunk_size) (hp : p.length ≤ L)
    (h : LenInv cfg L st) : LenInv cfg L (chunkStep cfg source st p) := by
  obtain ⟨h1, h2, h3, h4⟩ := h
  unfold chunkStep
  split
  case isTrue hcond =>
    have hkeptL : ∀ x ∈ st.current.drop (st.current.length - cfg.chunk_overlap), x.length ≤ L :=
      fun x hx => h1 x (List.mem_of_mem_drop hx)
    have hkeptlen : (st.current.drop (st.current.length - cfg.chunk_overlap)).length
        ≤ cfg.chunk_overlap := by
      simp only [List.length_drop]; omega
    have hkept : sumLens (st.current.drop (st.current.length - cfg.chunk_overlap))
        ≤ cfg.chunk_overlap * L :=
      le_trans (sumLens_le L _ hkeptL) (Nat.mul_le_mul_right L hkeptlen)
    refine ⟨?_, ?_, ?_, ?_⟩
    · intro x hx
      rcases List.mem_append.mp hx with hx1 | hx1
      · exact hkeptL x hx1
      · simp only [List.mem_singleton] at hx1; subst hx1; exact hp
    · show ((st.current.drop (st.current.length - cfg.chunk_overlap)).map List.length).sum
          + p.length
        = sumLens (st.current.drop (st.current.length - cfg.chunk_overlap) ++ [p])
      simp [sumLens]
    · show ((st.current.drop (st.current.length - cfg.chunk_overlap)).map List.length).sum
          + p.length ≤ cfg.chunk_size
      have heq : ((st.current.drop (st.current.length - cfg.chunk_overlap)).map List.length).sum
          = sumLens (st.current.drop (st.current.length - cfg.chunk_overlap)) := rfl
      rw [heq]
      have hmul : cfg.chunk_overlap * L + L = (cfg.chunk_overlap + 1) * L := by ring
      omega
    · show ∀ c ∈ st.chunks ++ [mkChunk source st.currentStart st.current], _
      intro c hc
      rcases List.mem_append.mp hc with hc1 | hc1
      · exact h4 c hc1
      · simp only [List.mem_singleton] at hc1
        subst hc1
        obtain ⟨-, hne⟩ := hcond
        have hpar : (mkChunk source st.currentStart st.current).paras = st.current := rfl
        have htxt : (mkChunk source st.currentStart st.current).text
            = join2NL st.current := rfl
        rw [hpar, htxt]
        exact ⟨by omega, hne, rfl⟩
  case isFalse hcond =>
    refine ⟨?_, ?_, ?_, h4⟩
    · intro x hx
      rcases List.mem_append.mp hx with hx1 | hx1
      · exact h1 x hx1
      · simp only [List.mem_singleton] at hx1; subst hx1; exact hp
    · show st.currentLen + p.length = sumLens (st.current ++ [p])
      simp [h2]
    · show st.currentLen + p.length ≤ cfg.chunk_size
      by_cases hcur : st.current = []
      · have hz : st.currentLen = 0 := by rw [h2, hcur]; rfl
        have hLle : L ≤ (cfg.chunk_overlap + 1) * L := Nat.le_mul_of_pos_left L (by omega)
        omega
      · have hle : ¬(st.currentLen + p.length > cfg.chunk_size) :=
          fun hgt => hcond ⟨hgt, hcur⟩
        omega

theorem lenInv_foldl (cfg : ChunkCfg) (source : Str) (L : Nat) (ps : List Str)
    (hL : (cfg.chunk_overlap + 1) * L ≤ cfg.chunk_size) :
    ∀ st, (∀ p ∈ ps, p.length ≤ L) → LenInv cfg L st →
      LenInv cfg L (ps.foldl (chunkStep cfg source) st) := by
  induction ps with
  | nil => intro st _ h; exact h
  | cons p rest ih =>
    intro st hps h
    exact ih _ (fun x hx => hps x (by simp [hx]))
      (lenInv_step cfg source L st p hL (hps p (by simp)) h)

/-! ### Concrete chunker inputs used by witnesses and counterexamples -/

/-- A small guide text with three four-character paragraphs. -/
def wText : Str := "aaaa\n\nbbbb\n\ncccc".toList

/-- A source identifier, as `_chunk_text` receives (a file path). -/
def wSource : Str := "guides/snes/demo/guide_1.md".toList

/-- The first chunk `_chunk_text` emits for `wText` at
`chunk_size = 10, chunk_overlap = 0`. -/
def c2wChunk : Chunk := mkChunk wSource 0 ["aaaa".toList, "bbbb".toList]

/-- C5: for every configuration and input text, concatenating the chunks of
`_chunk_text` while dropping each non-first chunk's overlapping prefix
paragraphs yields exactly the original sequence of non-empty stripped
blank-line-delimited paragraphs of the text, in document order. -/
theorem c5_chunker_reconstructs (cfg : ChunkCfg) (text source : Str) :
    reconstruct (chunkText cfg text source) = pyParagraphs text := by
  have base : ReconInv source [] ⟨[], [], 0, 0⟩ := by
    refine ⟨by simp [chunkFinal], by simp, fun _ => ⟨rfl, rfl⟩⟩
  have h := reconInv_foldl cfg source (pyParagraphs text) [] ⟨[], [], 0, 0⟩ base
  have h1 := h.1
  simpa [reconstruct, chunkText] using h1

/-- C6: for every `(chunk_size, chunk_overlap)` with
`chunk_overlap < chunk_size` and every input text, each chunk emitted by
`_chunk_text` after the first begins with its immediate predecessor's last
`chunk_overlap` paragraphs, verbatim.  (The hypothesis is the claim's; the
carry law in fact holds for every configuration.) -/
theorem c6_overlap_carried_chain (cfg : ChunkCfg) (text source : Str)
    (_h : cfg.chunk_overlap < cfg.chunk_size) :
    List.Chain' (overlapCarried cfg) (chunkText cfg text source) := by
  have base : OvInv cfg ⟨[], [], 0, 0⟩ := ⟨List.chain'_nil, by simp, fun _ => rfl⟩
  exact ovInv_final cfg source _ (ovInv_foldl cfg source (pyParagraphs text) _ base)

/-- Witness for C6: at `chunk_size = 8, chunk_overlap = 1` the chunker
splits `wText` into two chunks and the second begins with the first's last
paragraph. -/
theorem c6_overlap_carried_chain_witness :
    (⟨8, 1⟩ : ChunkCfg).chunk_overlap < (⟨8, 1⟩ : ChunkCfg).chunk_size
    ∧ List.Chain' (overlapCarried ⟨8, 1⟩) (chunkText ⟨8, 1⟩ wText wSource) :=
  ⟨by decide, c6_overlap_carried_chain ⟨8, 1⟩ wText wSource (by decide)⟩

/-- C2, counterexample: at `chunk_size = 10, chunk_overlap = 2` the carried
overlap makes `_chunk_text` emit a chunk whose text has 16 characters,
exceeding the configured maximum of 10.  The claim "every chunk's text has
length at most `chunk_size`" is therefore false. -/
theorem c2_chunk_size_counterexample :
    ¬ ∀ c ∈ chunkText ⟨10, 2⟩ wText wSource, c.text.length ≤ 10 := by decide

/-- C2, amended: an emitted chunk's combined paragraph length stays within
`chunk_size` only under a paragraph-length bound `L` with
`(chunk_overlap + 1) * L ≤ chunk_size` (covering the carried overlap plus
one new paragraph); even then the chunk's joined text additionally carries
two separator characters per paragraph break. -/
theorem c2_amended_chunk_size_bound (cfg : ChunkCfg) (text source : Str) (L : Nat)
    (hp : ∀ p ∈ pyParagraphs text, p.length ≤ L)
    (hL : (cfg.chunk_overlap + 1) * L ≤ cfg.chunk_size) :
    ∀ c ∈ chunkText cfg text source,
      sumLens c.paras ≤ cfg.chunk_size
      ∧ c.text.length + 2 = sumLens c.paras + 2 * c.paras.length := by
  have base : LenInv cfg L ⟨[], [], 0, 0⟩ := ⟨by simp, rfl, by simp, by simp⟩
  have h := lenInv_foldl cfg source L (pyParagraphs text) hL ⟨[], [], 0, 0⟩ hp base
  obtain ⟨-, hB, hC, hD⟩ := h
  intro c hc
  unfold chunkText at hc
  unfold chunkFinal at hc
  split at hc
  case isTrue hne =>
    rcases List.mem_append.mp hc with hc1 | hc1
    · obtain ⟨hs, hn, ht⟩ := hD c hc1
      exact ⟨hs, by rw [ht]; exact join2NL_length c.paras hn⟩
    · simp only [List.mem_singleton] at hc1
      subst hc1
      simp only [mkChunk_paras, mkChunk_text]
      exact ⟨by omega, join2NL_length _ hne⟩
  case isFalse =>
    obtain ⟨hs, hn, ht⟩ := hD c hc
    exact ⟨hs, by rw [ht]; exact join2NL_length c.paras hn⟩

/-- Witness for the amended C2 at `chunk_size = 10, chunk_overlap = 0`,
paragraph bound `L = 4`, on the first emitted chunk of `wText`. -/
theorem c2_amended_chunk_size_bound_witness :
    (∀ p ∈ pyParagraphs wText, p.length ≤ 4)
    ∧ ((⟨10, 0⟩ : ChunkCfg).chunk_overlap + 1) * 4 ≤ 10
    ∧ c2wChunk ∈ chunkText ⟨10, 0⟩ wText wSource
    ∧ (sumLens c2wChunk.paras ≤ 10
        ∧ c2wChunk.text.length + 2 = sumLens c2wChunk.paras + 2 * c2wChunk.paras.length) :=
  ⟨by decide, by decide, by decide,
    c2_amended_chunk_size_bound ⟨10, 0⟩ wText wSource 4 (by decide) (by decide)
      c2wChunk (by decide)⟩

/-! ## Search result assembly (`EmbeddingsManager.search`, embeddings_manager.py 288-316)

`search` embeds the query, runs the FAISS index
(`distances, indices = index.search(query_embedding, top_k)`) and then
assembles the returned chunks.  The external FAISS `IndexFlatL2` behaves per
its documented contract: it returns exactly `top_k` `(distance, index)`
pairs sorted by non-decreasing non-negative squared-L2 distance, padding
with index `-1` (and a huge distance) when fewer than `top_k` vectors are
stored.  That reply enters the model as an explicit argument; the repository
code modelled here is the result loop with its `idx < len(chunks)` guard and
the `1 / (1 + d)` score.  Distances are modelled as exact rationals. -/

/-- Python list indexing `l[i]` with an `Int` index: negative indices count
from the end; out-of-range access is `none` (an `IndexError`). -/
def pyIndex {α : Type} (l : List α) (i : Int) : Option α :=
  if 0 ≤ i then l.get? i.toNat
  else if 0 ≤ (l.length : Int) + i then l.get? ((l.length : Int) + i).toNat
  else none

/-- A retrieval result: the chunk dictionary (`chunks[idx].copy()`) paired
with its added `"score"` value. -/
abbrev SearchResult := Chunk × ℚ

/-- The result loop of `search`: for each `(distance, index)` pair of the
FAISS reply in rank order, keep the entry when `idx < len(chunks)`, look up
`chunks[idx]` (Python semantics: negative indices wrap, and an out-of-range
access raises `IndexError`), and attach `score = 1 / (1 + d)`. -/
def assembleResults (chunks : List Chunk) : List (ℚ × Int) → Except Str (List SearchResult)
  | [] => .ok []
  | (d, idx) :: rest =>
    if idx < (chunks.length : Int) then
      match pyIndex chunks idx with
      | none => .error "IndexError".toList
      | some c =>
        match assembleResults chunks rest with
        | .error e => .error e
        | .ok rs => .ok ((c, 1 / (1 + d)) :: rs)
    else assembleResults chunks rest

theorem assembleResults_scores (chunks : List Chunk) (reply : List (ℚ × Int))
    (res : List SearchResult) (h : assembleResults chunks reply = .ok res) :
    ∃ sub : List (ℚ × Int), sub.Sublist reply
      ∧ res.map Prod.snd = sub.map (fun p => 1 / (1 + p.1)) := by
  induction reply generalizing res with
  | nil =>
    simp only [assembleResults, Except.ok.injEq] at h
    exact ⟨[], by simp [← h]⟩
  | cons p rest ih =>
    obtain ⟨d, idx⟩ := p
    simp only [assembleResults] at h
    split at h
    case isTrue =>
      cases hpi : pyIndex chunks idx with
      | none => rw [hpi] at h; exact absurd h (by simp)
      | some c =>
        rw [hpi] at h
        cases har : assembleResults chunks rest with
        | error e => rw [har] at h; exact absurd h (by simp)
        | ok rs =>
          rw [har] at h
          simp only [Except.ok.injEq] at h
          subst h
          obtain ⟨sub, hs, he⟩ := ih rs har
          exact ⟨(d, idx) :: sub, hs.cons₂ _, by simp [he]⟩
    case isFalse =>
      obtain ⟨sub, hs, he⟩ := ih res h
      exact ⟨sub, hs.cons _, he⟩

/-- C4: whenever the FAISS reply obeys the index contract (`top_k` pairs,
non-negative distances, non-decreasing order), `search` returns at most
`top_k` results, each result's score is `1 / (1 + d)` for one of the
returned distances `d` (hence lies in `(0, 1]`), and the scores are
non-increasing in list order. -/
theorem c4_search_result_properties (chunks : List Chunk) (reply : List (ℚ × Int))
    (top_k : Nat) (res : List SearchResult)
    (hlen : reply.length = top_k)
    (hnn : ∀ p ∈ reply, 0 ≤ p.1)
    (hsorted : List.Sorted (· ≤ ·) (reply.map Prod.fst))
    (hok : assembleResults chunks reply = .ok res) :
    res.length ≤ top_k
    ∧ (∀ r ∈ res, ∃ p ∈ reply, r.2 = 1 / (1 + p.1))
    ∧ (∀ r ∈ res, 0 < r.2 ∧ r.2 ≤ 1)
    ∧ List.Sorted (fun a b => b ≤ a) (res.map Prod.snd) := by
  obtain ⟨sub, hs, he⟩ := assembleResults_scores chunks reply res hok
  have hsubnn : ∀ p ∈ sub, (0 : ℚ) ≤ p.1 := fun p hp => hnn p (hs.subset hp)
  refine ⟨?_, ?_, ?_, ?_⟩
  · have hlen2 : res.length = sub.length := by
      have hc := congrArg List.length he
      simpa using hc
    have hle := hs.length_le
    omega
  · intro r hr
    have hmem : r.2 ∈ sub.map (fun p => 1 / (1 + p.1)) := by
      rw [← he]
      exact List.mem_map_of_mem Prod.snd hr
    obtain ⟨p, hp, hpe⟩ := List.mem_map.mp hmem
    exact ⟨p, hs.subset hp, hpe.symm⟩
  · intro r hr
    have hmem : r.2 ∈ sub.map (fun p => 1 / (1 + p.1)) := by
      rw [← he]
      exact List.mem_map_of_mem Prod.snd hr
    obtain ⟨p, hp, hpe⟩ := List.mem_map.mp hmem
    have hd : (0 : ℚ) ≤ p.1 := hsubnn p hp
    have hpos : (0 : ℚ) < 1 + p.1 := by linarith
    constructor
    · rw [← hpe]
      positivity
    · rw [← hpe]
      rw [div_le_one hpos]
      linarith
  · rw [he]
    have hfst : List.Sorted (· ≤ ·) (sub.map Prod.fst) :=
      hsorted.sublist (hs.map Prod.fst)
    have hfnn : ∀ d ∈ sub.map Prod.fst, (0 : ℚ) ≤ d := by
      intro d hd
      obtain ⟨p, hp, hpe⟩ := List.mem_map.mp hd
      exact hpe ▸ hsubnn p hp
    have hpair : List.Pairwise (fun a b : ℚ => 1 / (1 + b) ≤ 1 / (1 + a))
        (sub.map Prod.fst) := by
      refine List.Pairwise.imp_of_mem ?_ hfst
      intro a b ha hb hab
      have h0a : (0 : ℚ) < 1 + a := by have := hfnn a ha; linarith
      exact one_div_le_one_div_of_le h0a (by linarith)
    have hmm : sub.map (fun p => 1 / (1 + p.1))
        = (sub.map Prod.fst).map (fun d => 1 / (1 + d)) := by
      simp
    rw [hmm]
    exact hpair.map _ (fun a b hab => hab)

/-- C10: with stored chunks present, a FAISS padding entry `(d, -1)` (as
returned when `top_k` exceeds the number of stored vectors) passes the
`idx < len(chunks)` guard and contributes the game's *last* chunk via
Python negative indexing; with zero stored chunks, the same access raises
`IndexError`. -/
theorem c10_padding_index (chunks : List Chunk) (reply : List (ℚ × Int))
    (hvalid : ∀ p ∈ reply, p.2 = -1 ∨ (0 ≤ p.2 ∧ p.2 < (chunks.length : Int)))
    (hne : chunks ≠ []) :
    (∃ res, assembleResults chunks reply = .ok res
      ∧ ∀ d, (d, -1) ∈ reply → ∀ c, chunks.getLast? = some c → (c, 1 / (1 + d)) ∈ res)
    ∧ (∀ (d : ℚ) (rest : List (ℚ × Int)),
        assembleResults [] ((d, -1) :: rest) = .error "IndexError".toList) := by
  constructor
  · induction reply with
    | nil => exact ⟨[], rfl, by simp⟩
    | cons p rest ih =>
      obtain ⟨d0, idx0⟩ := p
      obtain ⟨res, hres, hmem⟩ := ih (fun q hq => hvalid q (by simp [hq]))
      rcases hvalid (d0, idx0) (by simp) with hpad | hrange
      · simp only at hpad
        subst hpad
        have hlenpos : 0 < chunks.length := List.length_pos.mpr hne
        have hguard : (-1 : Int) < (chunks.length : Int) := by omega
        cases hgl : chunks.getLast? with
        | none =>
          have hsome : chunks.getLast?.isSome := List.getLast?_isSome.mpr hne
          rw [hgl] at hsome
          simp at hsome
        | some c0 =>
          have hpi : pyIndex chunks (-1) = some c0 := by
            unfold pyIndex
            have h1 : ¬ (0 : Int) ≤ -1 := by omega
            have h2 : (0 : Int) ≤ (chunks.length : Int) + -1 := by omega
            rw [if_neg h1, if_pos h2]
            have h3 : (((chunks.length : Int) + -1).toNat) = chunks.length - 1 := by omega
            rw [h3, List.get?_eq_getElem?, ← List.getLast?_eq_getElem?]
            exact hgl
          refine ⟨(c0, 1 / (1 + d0)) :: res, ?_, ?_⟩
          · simp [assembleResults, hguard, hpi, hres]
          · intro d hd c hc
            rcases List.mem_cons.mp hd with hd1 | hd1
            · simp only [Prod.mk.injEq] at hd1
              obtain ⟨hd1, -⟩ := hd1
              subst hd1
              simp only [Option.some.injEq] at hc
              subst hc
              exact List.mem_cons_self _ _
            · exact List.mem_cons_of_mem _ (hmem d hd1 c (by rw [hgl]; exact hc))
      · obtain ⟨hge, hlt⟩ := hrange
        have hpi : ∃ c, pyIndex chunks idx0 = some c := by
          unfold pyIndex
          rw [if_pos hge]
          have : idx0.toNat < chunks.length := by omega
          exact ⟨chunks.get ⟨idx0.toNat, this⟩, (List.get?_eq_get this)⟩
        obtain ⟨c0, hc0⟩ := hpi
        refine ⟨(c0, 1 / (1 + d0)) :: res, ?_, ?_⟩
        · simp [assembleResults, hlt, hc0, hres]
        · intro d hd c hc
          rcases List.mem_cons.mp hd with hd1 | hd1
          · simp only [Prod.mk.injEq] at hd1
            obtain ⟨-, hbad⟩ := hd1
            omega
          · exact List.mem_cons_of_mem _ (hmem d hd1 c hc)
  · intro d rest
    simp [assembleResults, pyIndex]

instance instDecEqExcept {e a : Type} [DecidableEq e] [DecidableEq a] :
    DecidableEq (Except e a) := fun x y =>
  match x, y with
  | .ok v, .ok w =>
    if h : v = w then .isTrue (by rw [h]) else .isFalse (by intro hh; cases hh; exact h rfl)
  | .error v, .error w =>
    if h : v = w then .isTrue (by rw [h]) else .isFalse (by intro hh; cases hh; exact h rfl)
  | .ok _, .error _ => .isFalse (by intro hh; cases hh)
  | .error _, .ok _ => .isFalse (by intro hh; cases hh)

/-- A first stored chunk, used as concrete search data. -/
def cA : Chunk := mkChunk wSource 0 ["aaaa".toList]

/-- A second stored chunk, used as concrete search data. -/
def cB : Chunk := mkChunk wSource 1 ["bbbb".toList]

/-- The concrete FAISS reply used by the C4 witness: two hits at distances
0 and 1. -/
def c4Reply : List (ℚ × Int) := [(0, 0), (1, 1)]

/-- Witness for C4 on two stored chunks and an in-contract FAISS reply. -/
theorem c4_search_result_properties_witness :
    c4Reply.length = 2
    ∧ (∀ p ∈ c4Reply, 0 ≤ p.1)
    ∧ List.Sorted (· ≤ ·) (c4Reply.map Prod.fst)
    ∧ assembleResults [cA, cB] c4Reply = .ok [(cA, 1 / (1 + 0)), (cB, 1 / (1 + 1))]
    ∧ ([(cA, (1 : ℚ) / (1 + 0)), (cB, 1 / (1 + 1))].length ≤ 2
        ∧ (∀ r ∈ [(cA, (1 : ℚ) / (1 + 0)), (cB, 1 / (1 + 1))],
            ∃ p ∈ c4Reply, r.2 = 1 / (1 + p.1))
        ∧ (∀ r ∈ [(cA, (1 : ℚ) / (1 + 0)), (cB, 1 / (1 + 1))], 0 < r.2 ∧ r.2 ≤ 1)
        ∧ List.Sorted (fun a b => b ≤ a)
            ([(cA, (1 : ℚ) / (1 + 0)), (cB, 1 / (1 + 1))].map Prod.snd)) :=
  ⟨by decide, by decide, by decide, rfl,
    c4_search_result_properties [cA, cB] c4Reply 2
      [(cA, 1 / (1 + 0)), (cB, 1 / (1 + 1))]
      (by decide) (by decide) (by decide) rfl⟩

/-- The concrete FAISS reply used by the C10 witness: one real hit plus one
padding entry `(distance, -1)`, as FAISS returns when `top_k = 2` exceeds
the stored vector count. -/
def c10Reply : List (ℚ × Int) := [(0, 0), (1 / 2, -1)]

/-- Witness for C10: on two stored chunks, the padding entry contributes
the last chunk `cB` with score `1 / (1 + 1/2)`. -/
theorem c10_padding_index_witness :
    ((∀ p ∈ c10Reply, p.2 = -1 ∨ (0 ≤ p.2 ∧ p.2 < (([cA, cB] : List Chunk).length : Int)))
      ∧ ([cA, cB] : List Chunk) ≠ [])
    ∧ ((∃ res, assembleResults [cA, cB] c10Reply = .ok res
        ∧ ∀ d, (d, -1) ∈ c10Reply → ∀ c, ([cA, cB] : List Chunk).getLast? = some c →
            (c, 1 / (1 + d)) ∈ res)
      ∧ (∀ (d : ℚ) (rest : List (ℚ × Int)),
          assembleResults [] ((d, -1) :: rest) = .error "IndexError".toList)) :=
  ⟨⟨by decide, by decide⟩, c10_padding_index [cA, cB] c10Reply (by decide) (by decide)⟩

/-! ## Persistence round trip (`save_embeddings` / `load_embeddings`,
embeddings_manager.py 178-236)

`save_embeddings` normalizes the game name, builds the JSON record
`{game_name, model_name, embedding_dim, chunks, embeddings}` and writes it
to `{embeddings_dir}/{name}_embeddings.json`; `load_embeddings` normalizes
the same way, reads that file and returns `(data["chunks"],
data["embeddings"])`.  The embeddings directory is modelled as a map from
file name to persisted record, and a file write replaces the mapping at
that name.  Vector entries are modelled as exact rationals: Python's
`json.dump`/`json.load` of `ndarray.tolist()` round-trips every finite
float value exactly, so `np.array(data["embeddings"])` is numerically
equal to the saved array. -/

/-- A persisted embeddings record (the JSON object written by
`save_embeddings`). -/
structure EmbRecord where
  game_name : Str
  model_name : Str
  embedding_dim : Nat
  chunks : List Chunk
  embeddings : List (List ℚ)

/-- The embeddings directory: file name to persisted record. -/
def EmbStore := Str → Option EmbRecord

/-- `{normalized_game_name}_embeddings.json`. -/
def embFileName (game_name : Str) : Str :=
  normalizeName game_name ++ "_embeddings.json".toList

/-- `EmbeddingsManager.save_embeddings(game_name, chunks, embeddings)`:
normalize the name and overwrite the per-game record, recording the
manager's `model_name` and `embedding_dim`. -/
def save_embeddings (store : EmbStore) (model_name : Str) (embedding_dim : Nat)
    (game_name : Str) (chunks : List Chunk) (embeddings : List (List ℚ)) : EmbStore :=
  fun k =>
    if k = embFileName game_name then
      some ⟨normalizeName game_name, model_name, embedding_dim, chunks, embeddings⟩
    else store k

/-- `EmbeddingsManager.load_embeddings(game_name)`: normalize the name,
fail with `FileNotFoundError` when no record exists, else return
`(data["chunks"], data["embeddings"])`. -/
def load_embeddings (store : EmbStore) (game_name : Str) :
    Except Str (List Chunk × List (List ℚ)) :=
  match store (embFileName game_name) with
  | none => .error "FileNotFoundError".toList
  | some data => .ok (data.chunks, data.embeddings)

/-- C7: for every game id, chunk list and vector matrix, loading right
after saving returns exactly the saved chunks and numerically equal
vectors, whatever else the store contains. -/
theorem c7_save_load_round_trip (store : EmbStore) (model_name : Str) (dim : Nat)
    (game_name : Str) (chunks : List Chunk) (embeddings : List (List ℚ)) :
    load_embeddings (save_embeddings store model_name dim game_name chunks embeddings)
        game_name
      = .ok (chunks, embeddings) := by
  simp [load_embeddings, save_embeddings]

/-! ## Context formatting

Two distinct functions build the context string:

* `EmbeddingsManager.get_context_for_query(game_name, query, top_k)`
  (embeddings_manager.py 367-389) formats every search result as
  `f"From {source} (relevance: {score:.2f}):\n{text}\n"` and joins the
  blocks with `"\n"`.  It has **no** `max_tokens` parameter and never
  truncates.
* `GuideRetriever.get_context_for_query(query, max_tokens)`
  (chat/retriever.py 213-235) walks the retrieved chunks, counts each
  chunk's text tokens with tiktoken, breaks out of the loop once the next
  whole chunk would exceed `max_tokens`, and formats each kept chunk as
  `f"From {chunk['source']}:\n{chunk['text']}\n"` — without a relevance
  score.

Both are modelled on the already-retrieved result lists; the token counter
(external tiktoken) enters as a function argument `tc`. -/

/-- Round a rational to the nearest integer, ties to even (the rounding of
Python's fixed-point float formatting). -/
def roundHalfEven (q : ℚ) : ℤ :=
  if q - ⌊q⌋ < 1 / 2 then ⌊q⌋
  else if 1 / 2 < q - ⌊q⌋ then ⌊q⌋ + 1
  else if ⌊q⌋ % 2 = 0 then ⌊q⌋ else ⌊q⌋ + 1

/-- Decimal digits of a natural number, as characters. -/
def natDigits (n : Nat) : Str := Nat.toDigits 10 n

/-- Helper for `fmt2`: a non-negative fixed-point value scaled by 100,
printed with two decimals. -/
def fmt2OfScaled (m : Nat) : Str :=
  natDigits (m / 100) ++ '.' ::
    (if m % 100 < 10 then '0' :: natDigits (m % 100) else natDigits (m % 100))

/-- Python `f"{q:.2f}"` on an exact rational. -/
def fmt2 (q : ℚ) : Str :=
  if roundHalfEven (q * 100) < 0 then '-' :: fmt2OfScaled (-(roundHalfEven (q * 100))).toNat
  else fmt2OfScaled (roundHalfEven (q * 100)).toNat

/-- One formatted block of `EmbeddingsManager.get_context_for_query`:
`f"From {source} (relevance: {score:.2f}):\n{text}\n"`. -/
def emBlock (r : SearchResult) : Str :=
  "From ".toList ++ r.1.source ++ " (relevance: ".toList ++ fmt2 r.2
    ++ "):\n".toList ++ r.1.text ++ "\n".toList

/-- `EmbeddingsManager.get_context_for_query`, applied to the results its
internal `search` call produced: every result is formatted and the blocks
joined with `"\n"`; no token budget exists. -/
def em_get_context_for_query (results : List SearchResult) : Str :=
  join1NL (results.map emBlock)

/-- A chunk dictionary of `GuideRetriever._chunk_text` (chat/retriever.py
61-86): token-window text with source and token-range metadata. -/
structure RChunk where
  text : Str
  source : Str
  start_token : Nat
  end_token : Nat
deriving DecidableEq, Repr

/-- One formatted block of `GuideRetriever.get_context_for_query`:
`f"From {chunk['source']}:\n{chunk['text']}\n"` — no relevance score. -/
def grBlock (c : RChunk) : Str :=
  "From ".toList ++ c.source ++ ":\n".toList ++ c.text ++ "\n".toList

/-- The token-budget loop of `GuideRetriever.get_context_for_query`:
`total` is the running `total_tokens`; once `total + chunk_tokens >
max_tokens` the loop breaks, dropping that chunk and everything after it.
Only the chunk's own text tokens are counted, not the block decoration. -/
def grParts (tc : Str → Nat) (maxTokens : Nat) : List RChunk → Nat → List Str
  | [], _ => []
  | c :: rest, total =>
    if total + tc c.text > maxTokens then []
    else grBlock c :: grParts tc maxTokens rest (total + tc c.text)

/-- `GuideRetriever.get_context_for_query(query, max_tokens)`, applied to
the chunks its internal `get_relevant_chunks` call produced, with the
tiktoken counter abstracted as `tc`. -/
def gr_get_context_for_query (tc : Str → Nat) (maxTokens : Nat)
    (chunks : List RChunk) : Str :=
  join1NL (grParts tc maxTokens chunks 0)

/-- Modelled from the spec: the context builder that claim C1 describes —
blocks `"From {source} (relevance: {score:.2f}):\n{text}\n"` in rank
order, dropping a result and all later ones once including the whole chunk
would exceed the running token budget.  No function of the repository has
this combined behaviour; this definition exists to compare against the two
source functions above. -/
def claimParts (tc : Str → Nat) (maxTokens : Nat) : List SearchResult → Nat → List Str
  | [], _ => []
  | r :: rest, total =>
    if total + tc r.1.text > maxTokens then []
    else emBlock r :: claimParts tc maxTokens rest (total + tc r.1.text)

/-- Modelled from the spec: `claimParts` joined with `"\n"` (see there). -/
def claim_get_context (tc : Str → Nat) (maxTokens : Nat)
    (results : List SearchResult) : Str :=
  join1NL (claimParts tc maxTokens results 0)

/-- C1, counterexample: `EmbeddingsManager.get_context_for_query` applies
no token budget at all — with `max_tokens = 0` the claimed builder emits
nothing while the source function still emits the full block.  (The other
source function, `GuideRetriever.get_context_for_query`, truncates but
formats without a relevance score, so neither matches the claim.) -/
theorem c1_get_context_counterexample :
    em_get_context_for_query [(cA, 1 / 2)]
      ≠ claim_get_context List.length 0 [(cA, 1 / 2)] := by
  have hr : claim_get_context List.length 0 [(cA, 1 / 2)] = ([] : Str) := rfl
  intro h
  rw [hr] at h
  exact List.noConfusion h

/-- The number of leading chunks whose cumulative text-token counts stay
within the budget: the length of the longest prefix of running sums that
is at most `maxTokens`. -/
def fitCount (tc : Str → Nat) (maxTokens : Nat) (chunks : List RChunk) : Nat :=
  ((((chunks.map (fun c => tc c.text)).scanl (· + ·) 0).drop 1).takeWhile
    (fun s => s ≤ maxTokens)).length

theorem grParts_eq_take (tc : Str → Nat) (maxTokens : Nat) (chunks : List RChunk) :
    ∀ total, grParts tc maxTokens chunks total
      = ((chunks.take
          ((((chunks.map (fun c => tc c.text)).scanl (· + ·) total).drop 1).takeWhile
            (fun s => s ≤ maxTokens)).length)).map grBlock := by
  induction chunks with
  | nil => intro total; simp [grParts]
  | cons c rest ih =>
    intro total
    have hdrop : (((c :: rest).map (fun x => tc x.text)).scanl (· + ·) total).drop 1
        = (rest.map (fun x => tc x.text)).scanl (· + ·) (total + tc c.text) := by
      rw [List.map_cons, List.scanl_cons, List.singleton_append, List.drop_one,
        List.tail_cons]
    rw [hdrop]
    cases rest with
    | nil =>
      by_cases hfit : total + tc c.text ≤ maxTokens
      · have hnot : ¬ total + tc c.text > maxTokens := by omega
        simp [grParts, hnot, hfit, List.scanl]
      · have hgt : total + tc c.text > maxTokens := by omega
        simp [grParts, hgt, hfit, List.scanl]
    | cons c2 rest2 =>
      rw [List.map_cons, List.scanl_cons, List.singleton_append]
      by_cases hfit : total + tc c.text ≤ maxTokens
      · have hnot : ¬ total + tc c.text > maxTokens := by omega
        have hstep : grParts tc maxTokens (c :: c2 :: rest2) total
            = grBlock c :: grParts tc maxTokens (c2 :: rest2) (total + tc c.text) := by
          simp [grParts, hnot]
        rw [hstep, ih (total + tc c.text)]
        have hdrop2 : (((c2 :: rest2).map (fun x => tc x.text)).scanl (· + ·)
            (total + tc c.text)).drop 1
            = (rest2.map (fun x => tc x.text)).scanl (· + ·)
              (total + tc c.text + tc c2.text) := by
          rw [List.map_cons, List.scanl_cons, List.singleton_append, List.drop_one,
            List.tail_cons]
        rw [hdrop2, List.takeWhile_cons]
        simp [hfit]
      · have hgt : total + tc c.text > maxTokens := by omega
        have hstep : grParts tc maxTokens (c :: c2 :: rest2) total = [] := by
          simp [grParts, hgt]
        rw [hstep, List.takeWhile_cons]
        simp [hfit]

theorem mem_join1NL_infix (a : Str) (parts : List Str) (h : a ∈ parts) :
    a <:+: join1NL parts := by
  induction parts with
  | nil => simp at h
  | cons p rest ih =>
    rcases List.mem_cons.mp h with h1 | h1
    · subst h1
      cases rest with
      | nil => exact List.infix_rfl
      | cons q rest2 =>
        exact ((List.prefix_append a ('\n' :: join1NL (q :: rest2)))).isInfix
    · cases rest with
      | nil => simp at h1
      | cons q rest2 =>
        have hsub := ih h1
        have : join1NL (q :: rest2) <:+: join1NL (p :: q :: rest2) := by
          show join1NL (q :: rest2) <:+: p ++ '\n' :: join1NL (q :: rest2)
          exact ((List.suffix_cons '\n' (join1NL (q :: rest2))).trans
            (List.suffix_append p _)).isInfix
        exact hsub.trans this

/-- C1, amended: the two context builders split the claimed behaviour.
`GuideRetriever.get_context_for_query` applies the whole-chunk token budget
(counting only each chunk's own text tokens): its output is exactly the
blocks of the longest prefix of chunks whose running token total fits,
formatted without relevance scores.  `EmbeddingsManager.get_context_for_query`
formats every result with the relevance score and applies no budget: each
result's full block appears in its output. -/
theorem c1_amended_get_context (tc : Str → Nat) (maxTokens : Nat) :
    (∀ chunks : List RChunk,
        gr_get_context_for_query tc maxTokens chunks
          = join1NL ((chunks.take (fitCount tc maxTokens chunks)).map grBlock))
    ∧ (∀ results : List SearchResult, ∀ r ∈ results,
        emBlock r <:+: em_get_context_for_query results) := by
  constructor
  · intro chunks
    unfold gr_get_context_for_query fitCount
    rw [grParts_eq_take tc maxTokens chunks 0]
  · intro results r hr
    exact mem_join1NL_infix _ _ (List.mem_map_of_mem emBlock hr)

/-- A concrete retriever chunk for the C1 witness. -/
def rc0 : RChunk := ⟨"go north".toList, "guide_1.md".toList, 0, 2⟩

/-- Witness for the amended C1: a budget of 100 keeps the single chunk,
and the embeddings-manager block of a scored result appears in its
context output. -/
theorem c1_amended_get_context_witness :
    gr_get_context_for_query List.length 100 [rc0]
      = join1NL (([rc0].take (fitCount List.length 100 [rc0])).map grBlock)
    ∧ emBlock (cA, 1 / 2) <:+: em_get_context_for_query [(cA, 1 / 2)] :=
  ⟨(c1_amended_get_context List.length 100).1 [rc0],
    (c1_amended_get_context List.length 100).2 [(cA, 1 / 2)] (cA, 1 / 2)
      (List.mem_singleton.mpr rfl)⟩

/-! ## Fuzzy game-name fallback
(`FileSystemGuideManager.get_guide_context`, guide_manager.py 134-155)

When the exact normalized id has no persisted store
(`FileNotFoundError`), the manager scans `base_path`'s platform
directories and, inside each, the game directories, accepting the first
game directory with `normalized_name in
game_dir.name.lower().replace(" ", "-")` — containment in one direction
only. -/

/-- A platform directory entry: its name, whether it is a directory, and
its child entries `(name, is_dir)`. -/
structure PlatformDir where
  name : Str
  isDir : Bool
  games : List (Str × Bool)
deriving DecidableEq, Repr

/-- The inner `for game_dir in platform_dir.iterdir()` loop of the
fallback: first child that is a directory and whose normalized name
contains the queried normalized game name; `pname` is the enclosing
platform directory's name. -/
def fuzzyGames (normName pname : Str) : List (Str × Bool) → Option (Str × Str)
  | [] => none
  | g :: gs =>
    if g.2 && strContains (normalizeName g.1) normName then some (pname, g.1)
    else fuzzyGames normName pname gs

/-- The fallback scan of `get_guide_context`: platform directories in
iteration order, returning at the first matching game directory. -/
def fuzzyFindGame (normName : Str) : List PlatformDir → Option (Str × Str)
  | [] => none
  | pd :: rest =>
    if pd.isDir then
      match fuzzyGames normName pd.name pd.games with
      | some v => some v
      | none => fuzzyFindGame normName rest
    else fuzzyFindGame normName rest

/-- Modelled from the spec: the inner loop that claim C8 describes, testing
containment in both directions. -/
def specFuzzyGames (normName pname : Str) : List (Str × Bool) → Option (Str × Str)
  | [] => none
  | g :: gs =>
    if g.2 && (strContains (normalizeName g.1) normName
        || strContains normName (normalizeName g.1)) then some (pname, g.1)
    else specFuzzyGames normName pname gs

/-- Modelled from the spec: the scan that claim C8 describes — accept the
first directory whose normalized name contains the query's normalized game
name OR is contained by it. -/
def specFuzzyFindGame (normName : Str) : List PlatformDir → Option (Str × Str)
  | [] => none
  | pd :: rest =>
    if pd.isDir then
      match specFuzzyGames normName pd.name pd.games with
      | some v => some v
      | none => specFuzzyFindGame normName rest
    else specFuzzyFindGame normName rest

/-- C8, counterexample: for query `"soul-blazer"` and a lone directory
`"soul"`, the code's one-direction test matches nothing, while the claimed
two-direction test accepts `"soul"` (the directory name is contained in
the query).  The code tests containment in one direction only. -/
theorem c8_containment_counterexample :
    fuzzyFindGame "soul-blazer".toList
        [⟨"snes".toList, true, [("soul".toList, true)]⟩] = none
    ∧ specFuzzyFindGame "soul-blazer".toList
        [⟨"snes".toList, true, [("soul".toList, true)]⟩]
      = some ("snes".toList, "soul".toList) := by
  constructor <;> decide

/-- The game directories in scan order: directory platform entries first,
each contributing its directory-type children as `(platform, game)`
candidates. -/
def candidateDirs (base : List PlatformDir) : List (Str × Str) :=
  (base.filter (fun pd => pd.isDir)).flatMap
    (fun pd => (pd.games.filter (fun g => g.2)).map (fun g => (pd.name, g.1)))

theorem fuzzyGames_eq_find? (normName : Str) (pname : Str)
    (games : List (Str × Bool)) :
    fuzzyGames normName pname games
      = ((games.filter (fun g => g.2)).map (fun g => (pname, g.1))).find?
          (fun c => strContains (normalizeName c.2) normName) := by
  induction games with
  | nil => rfl
  | cons g gs ih =>
    obtain ⟨gname, gdir⟩ := g
    cases gdir with
    | false => simpa [fuzzyGames, List.filter_cons] using ih
    | true =>
      cases hc : strContains (normalizeName gname) normName with
      | false => simpa [fuzzyGames, List.filter_cons, List.find?_cons, hc] using ih
      | true => simp [fuzzyGames, List.filter_cons, List.find?_cons, hc]

/-- C8, amended: the fallback accepts the first game directory (platforms
outer, filesystem order) whose normalized name **contains** the query's
normalized game name; containment is tested in that one direction only. -/
theorem c8_amended_first_one_direction_match (normName : Str) (base : List PlatformDir) :
    fuzzyFindGame normName base
      = (candidateDirs base).find? (fun c => strContains (normalizeName c.2) normName) := by
  induction base with
  | nil => rfl
  | cons pd rest ih =>
    obtain ⟨pname, pisdir, pgames⟩ := pd
    cases pisdir with
    | false => simpa [fuzzyFindGame, candidateDirs, List.filter_cons] using ih
    | true =>
      show (match fuzzyGames normName pname pgames with
        | some v => some v
        | none => fuzzyFindGame normName rest) = _
      rw [fuzzyGames_eq_find? normName pname pgames]
      have hc : candidateDirs (⟨pname, true, pgames⟩ :: rest)
          = ((pgames.filter (fun g => g.2)).map (fun g => (pname, g.1)))
            ++ candidateDirs rest := by
        simp [candidateDirs, List.filter_cons]
      rw [hc, List.find?_append]
      cases hfind : ((pgames.filter (fun g => g.2)).map (fun g => (pname, g.1))).find?
          (fun c => strContains (normalizeName c.2) normName) with
      | some v => simp
      | none => simpa using ih

/-! ## Pagination (`GameFAQsScraper`, scraper/__init__.py 304-332 and 397-419)

`_get_pagination_info` inspects the `<ul class="paginate">` region of the
first fetched page: first it scans the `<li>` texts for a
`Page \d+ of (\d+)` label, else it takes the maximum page number among
page links (`href` containing `\?page=\d+`), skipping links labelled
`Last Page` or `Next Page`; no markup at all means one page.
`download_guide` then computes
`actual_pages = total_pages - 1 if total_pages > 1 else 1` and fetches
pages `1..actual_pages` (the first page is already in hand; pages 2 and up
go over the network).  The two regular expressions are implemented here
directly on character lists with Python `re` semantics (leftmost match,
greedy `\d+`). -/

/-- Numeric value of a digit string. -/
def digitsVal (ds : Str) : Nat := ds.foldl (fun n c => n * 10 + (c.toNat - '0'.toNat)) 0

/-- Strip a literal from the front of a string, or fail. -/
def stripLit : Str → Str → Option Str
  | [], s => some s
  | _ :: _, [] => none
  | l :: ls, c :: cs => if c = l then stripLit ls cs else none

/-- Match `Page \d+ of (\d+)` at the start of `s`, returning the captured
group.  Greedy `\d+` is maximal-munch; no backtracking can help because a
digit run is never followed by another digit. -/
def matchPageOfAt (s : Str) : Option Nat :=
  match stripLit "Page ".toList s with
  | none => none
  | some r1 =>
    if (r1.takeWhile Char.isDigit) = [] then none
    else
      match stripLit " of ".toList (r1.drop (r1.takeWhile Char.isDigit).length) with
      | none => none
      | some r2 =>
        if (r2.takeWhile Char.isDigit) = [] then none
        else some (digitsVal (r2.takeWhile Char.isDigit))

/-- Python `re.search(r"Page \d+ of (\d+)", s)`: leftmost match wins. -/
def searchPageOf : Str → Option Nat
  | [] => none
  | c :: rest =>
    match matchPageOfAt (c :: rest) with
    | some n => some n
    | none => searchPageOf rest

/-- Match `\?page=(\d+)` at the start of `s`. -/
def matchPageQAt (s : Str) : Option Nat :=
  match stripLit "?page=".toList s with
  | none => none
  | some r =>
    if (r.takeWhile Char.isDigit) = [] then none
    else some (digitsVal (r.takeWhile Char.isDigit))

/-- Python `re.search(r"\?page=(\d+)", s)`. -/
def searchPageQ : Str → Option Nat
  | [] => none
  | c :: rest =>
    match matchPageQAt (c :: rest) with
    | some n => some n
    | none => searchPageQ rest

/-- A page link inside the pagination region (`<a>` text and `href`). -/
structure PageLink where
  text : Str
  href : Str
deriving DecidableEq, Repr

/-- The `<ul class="paginate">` region: its `<li>` texts and its links. -/
structure PaginateUl where
  lis : List Str
  links : List PageLink
deriving DecidableEq, Repr

/-- A fetched guide page, abstracted to its pagination region (absent when
the page has no `<ul class="paginate">`). -/
structure GuidePage where
  paginate : Option PaginateUl
deriving DecidableEq, Repr

/-- The `for li in pagination.find_all("li")` loop: skip empty texts, and
return the first successful `Page X of Y` parse. -/
def liScan : List Str → Option Nat
  | [] => none
  | li :: rest =>
    if li = [] then liScan rest
    else
      match searchPageOf li with
      | some n => some n
      | none => liScan rest

/-- The fallback loop over page links: maximum referenced page number,
starting from 1, skipping links labelled `Last Page` or `Next Page`. -/
def maxPageFold (links : List PageLink) : Nat :=
  links.foldl (fun mx l =>
    if l.text = "Last Page".toList ∨ l.text = "Next Page".toList then mx
    else
      match searchPageQ l.href with
      | some n => max mx n
      | none => mx) 1

/-- `GameFAQsScraper._get_pagination_info(soup)`: `(current_page,
total_pages)`. -/
def getPaginationInfo (p : GuidePage) : Nat × Nat :=
  match p.paginate with
  | none => (1, 1)
  | some pag =>
    match liScan pag.lis with
    | some total => (1, total)
    | none =>
      if pag.links.filter (fun l => (searchPageQ l.href).isSome) ≠ [] then
        (1, maxPageFold (pag.links.filter (fun l => (searchPageQ l.href).isSome)))
      else (1, 1)

/-- `actual_pages = total_pages - 1 if total_pages > 1 else 1`
(download_guide, line 402). -/
def actualPages (total : Nat) : Nat := if total > 1 then total - 1 else 1

/-- The page numbers `download_guide` processes:
`range(1, actual_pages + 1)` (page 1 from the initial fetch, later pages
over the network). -/
def fetchedPages (p : GuidePage) : List Nat :=
  List.range' 1 (actualPages (getPaginationInfo p).2)

/-- C3: when the first page reports `N > 1` total pages, `download_guide`
fetches exactly pages `1` through `N - 1` and never page `N`; when no
pagination marker is present, exactly page 1 is fetched. -/
theorem c3_pagination_last_page_skip (p : GuidePage) (N : Nat)
    (hN : (getPaginationInfo p).2 = N) :
    (N > 1 → fetchedPages p = List.range' 1 (N - 1) ∧ N ∉ fetchedPages p)
    ∧ (p.paginate = none → fetchedPages p = [1]) := by
  constructor
  · intro h1
    unfold fetchedPages actualPages
    rw [hN, if_pos h1]
    refine ⟨rfl, ?_⟩
    intro hmem
    rw [List.mem_range'_1] at hmem
    omega
  · intro hnone
    unfold fetchedPages actualPages getPaginationInfo
    rw [hnone]
    rfl

/-- The concrete first page of the C3 witness: its pagination region
reports `Page 1 of 3`. -/
def page3 : GuidePage := ⟨some ⟨["Page 1 of 3".toList], []⟩⟩

/-- A first page with no pagination region at all. -/
def pageSolo : GuidePage := ⟨none⟩

/-- Witness for C3: the `Page 1 of 3` guide is fetched for pages 1 and 2
only, and a guide without pagination markup is fetched once. -/
theorem c3_pagination_last_page_skip_witness :
    (getPaginationInfo page3).2 = 3
    ∧ (3 : Nat) > 1
    ∧ (fetchedPages page3 = List.range' 1 (3 - 1) ∧ 3 ∉ fetchedPages page3)
    ∧ fetchedPages page3 = [1, 2]
    ∧ fetchedPages pageSolo = [1] :=
  ⟨by decide, by decide,
    (c3_pagination_last_page_skip page3 3 (by decide)).1 (by decide),
    by decide,
    (c3_pagination_last_page_skip pageSolo 1 (by decide)).2 rfl⟩

/-! ## Markup extraction (`GameFAQsScraper._extract_content`,
scraper/__init__.py 138-302)

HTML is modelled as a tree of text nodes and elements (tag, class list,
optional `href`, children); the extractor receives the recognized content
region's direct children.  BeautifulSoup operations used by the code:
`get_text()` concatenates all descendant strings in document order;
`get_text(strip=True)` concatenates them stripped; `find(tag)` returns the
first matching descendant in document order; `find_all(tags)` returns every
matching descendant (nested matches included); `decompose()` removes a
subtree.  The two cleanup regexes `\n\s+\n -> \n\n` and `" +" -> " "`
are implemented with Python `re.sub` semantics (leftmost non-overlapping
matches, greedy quantifiers, continue after each replacement). -/

/-- An HTML node: a text node, or an element with tag, `class` attribute
values, optional `href` and children. -/
inductive Node where
  | text (s : Str)
  | elem (tag : Str) (classes : List Str) (href : Option Str) (children : List Node)

mutual

/-- All descendant strings of a node, in document order. -/
def textsN : Node → List Str
  | .text s => [s]
  | .elem _ _ _ cs => textsL cs

/-- All descendant strings under a node list, in document order. -/
def textsL : List Node → List Str
  | [] => []
  | n :: rest => textsN n ++ textsL rest

end

/-- BeautifulSoup `node.get_text()`. -/
def getTextRaw (n : Node) : Str := (textsN n).flatten

/-- BeautifulSoup `get_text(strip=True)` over a node list (the children of
an element). -/
def childTextS (cs : List Node) : Str := ((textsL cs).map pyStrip).flatten

/-- BeautifulSoup `node.get_text(strip=True)`. -/
def getTextS (n : Node) : Str := ((textsN n).map pyStrip).flatten

mutual

/-- `find(t)` starting at a node: the node itself when it matches, else
its first matching descendant in document order. -/
def findTagN (t : Str) : Node → Option Node
  | .text _ => none
  | n@(.elem tg _ _ cs) => if tg = t then some n else findTagL t cs

/-- `find(t)` in a node list: first match in document order, depth
first. -/
def findTagL (t : Str) : List Node → Option Node
  | [] => none
  | n :: rest =>
    match findTagN t n with
    | some m => some m
    | none => findTagL t rest

end

mutual

/-- `find_all(tags)` starting at a node: the node itself when it matches,
plus all matching descendants, in document order. -/
def collectTagsN (tags : List Str) : Node → List Node
  | .text _ => []
  | n@(.elem tg _ _ cs) =>
    (if tags.any (fun x => x == tg) then [n] else []) ++ collectTagsL tags cs

/-- `find_all(tags)` over a node list. -/
def collectTagsL (tags : List Str) : List Node → List Node
  | [] => []
  | n :: rest => collectTagsN tags n ++ collectTagsL tags rest

end

mutual

/-- The `decompose()` pass of `_extract_content` (lines 215-222): drop
`script`/`style`/`iframe`/`ins` elements and `div`s whose class list
intersects `{ftoc, nav, menu}`, at every depth. -/
def removeUnwanted : Node → Option Node
  | .text s => some (.text s)
  | .elem tag classes href cs =>
    if tag = "script".toList ∨ tag = "style".toList ∨ tag = "iframe".toList
        ∨ tag = "ins".toList then none
    else if tag = "div".toList
        ∧ (classes.any (fun c =>
            c == "ftoc".toList || c == "nav".toList || c == "menu".toList)) = true then
      none
    else some (.elem tag classes href (filterNodes cs))

/-- `removeUnwanted` mapped over a node list. -/
def filterNodes : List Node → List Node
  | [] => []
  | n :: rest =>
    match removeUnwanted n with
    | none => filterNodes rest
    | some m => m :: filterNodes rest

end

/-- Python `sep.join(parts)`. -/
def joinSep (sep : Str) : List Str → Str
  | [] => []
  | [p] => p
  | p :: q :: rest => p ++ sep ++ joinSep sep (q :: rest)

/-- `find_all("li", recursive=False)`: direct children with tag `li`. -/
def directLis (cs : List Node) : List Node :=
  cs.filter (fun n =>
    match n with
    | .elem t _ _ _ => t == "li".toList
    | .text _ => false)

/-- The `<ul>` branch: `"* " + li.get_text(strip=True) + "\n"` per direct
item. -/
def ulItems : List Node → Str
  | [] => []
  | li :: rest => "* ".toList ++ getTextS li ++ '\n' :: ulItems rest

/-- The `<ol>` branch: `f"{i}. " + li.get_text(strip=True) + "\n"` per
direct item, numbering from `i`. -/
def olItems (i : Nat) : List Node → Str
  | [] => []
  | li :: rest => natDigits i ++ ". ".toList ++ getTextS li ++ '\n' :: olItems (i + 1) rest

/-- The children of a node (empty for text nodes). -/
def nodeChildren : Node → List Node
  | .text _ => []
  | .elem _ _ _ cs => cs

/-- One `<tr>` of the `<table>` branch: pipe-joined cell texts, plus a
`---` separator row after any row containing `<th>` cells. -/
def tableRow (tr : Node) : Str :=
  "| ".toList
    ++ joinSep " | ".toList
      ((collectTagsL ["td".toList, "th".toList] (nodeChildren tr)).map getTextS)
    ++ " |\n".toList
    ++ (if (findTagL "th".toList (nodeChildren tr)).isSome then
        '|' :: joinSep "|".toList
          (List.replicate (collectTagsL ["th".toList] (nodeChildren tr)).length
            "---".toList) ++ "|\n".toList
      else [])

/-- The heading tags recognized by the extractor, plus the structural
sibling tags that veto pre-formatted mode. -/
def structuralTags : List Str :=
  ["h1".toList, "h2".toList, "h3".toList, "h4".toList, "h5".toList, "h6".toList,
    "p".toList, "ul".toList, "ol".toList, "table".toList]

/-- Whether a tag is `h1`..`h6`. -/
def isHeading (t : Str) : Prop :=
  t = "h1".toList ∨ t = "h2".toList ∨ t = "h3".toList ∨ t = "h4".toList
    ∨ t = "h5".toList ∨ t = "h6".toList

instance (t : Str) : Decidable (isHeading t) := by
  unfold isHeading; infer_instance

mutual

/-- `process_element(element)` of the structured mode (lines 224-285);
`parent` is the enclosing element's tag (used only by the inline-`code`
branch's `element.parent.name == "pre"` test). -/
def processNode (parent : Str) : Node → Str
  | .text s => if pyStrip s ≠ [] then pyStrip s ++ [' '] else []
  | .elem tag _ href cs =>
    if childTextS cs = [] then []
    else if isHeading tag then
      '\n' :: List.replicate (digitsVal (tag.drop 1)) '#' ++ ' ' :: childTextS cs ++ ['\n']
    else if tag = "p".toList then childTextS cs ++ ['\n']
    else if tag = "br".toList then ['\n']
    else if tag = "hr".toList then "\n---\n".toList
    else if tag = "ul".toList then '\n' :: ulItems (directLis cs)
    else if tag = "ol".toList then '\n' :: olItems 1 (directLis cs)
    else if tag = "pre".toList then
      match findTagL "code".toList cs with
      | some codeEl => "```\n".toList ++ getTextRaw codeEl ++ "\n```\n".toList
      | none => "```\n".toList ++ (textsL cs).flatten ++ "\n```\n".toList
    else if tag = "code".toList ∧ ¬ parent = "pre".toList then
      '`' :: childTextS cs ++ ['`']
    else if tag = "strong".toList ∨ tag = "b".toList then
      "**".toList ++ childTextS cs ++ "**".toList
    else if tag = "em".toList ∨ tag = "i".toList then
      '*' :: childTextS cs ++ ['*']
    else if tag = "a".toList ∧ href.isSome then
      '[' :: childTextS cs ++ "](".toList ++ href.getD [] ++ [')']
    else if tag = "table".toList then
      '\n' :: ((collectTagsL ["tr".toList] cs).map tableRow).flatten
    else processNodes tag cs

/-- `"".join(process_element(child) for child in element.children)`. -/
def processNodes (parent : Str) : List Node → Str
  | [] => []
  | n :: rest => processNode parent n ++ processNodes parent rest

end

/-- The top-level join of the structured mode (line 288): children that
are elements, or strings with non-whitespace content, processed with the
content `div` as parent. -/
def processTop (children : List Node) : Str :=
  (children.map (fun child =>
    match child with
    | .elem _ _ _ _ => processNode "div".toList child
    | .text s => if pyStrip s ≠ [] then processNode "div".toList child else [])).flatten

/-- Largest index `p ≥ 1` in `run` holding a newline (the greedy end of a
`\n\s+\n` match whose `\s+` run starts at index 0). -/
def lastNlIdx (run : Str) : Option Nat :=
  (List.range run.length).foldl (fun acc i =>
    if 1 ≤ i ∧ run.get? i = some '\n' then some i else acc) none

/-- Fuel-driven core of `re.sub(r"\n\s+\n", "\n\n", s)`: at each
newline, the whitespace run after it is examined for the farthest newline
at least one character in; a match is replaced by two newlines and
scanning resumes after it.  One fuel unit is spent per consumed character,
so `s.length` fuel always suffices. -/
def sub1F : Nat → Str → Str
  | 0, s => s
  | _ + 1, [] => []
  | fuel + 1, '\n' :: rest =>
    match lastNlIdx (rest.takeWhile isPySpace) with
    | some p => '\n' :: '\n' :: sub1F fuel (rest.drop (p + 1))
    | none => '\n' :: sub1F fuel rest
  | fuel + 1, c :: rest => c :: sub1F fuel rest

/-- `re.sub(r"\n\s+\n", "\n\n", s)` (line 295). -/
def sub1 (s : Str) : Str := sub1F s.length s

/-- `re.sub(r" +", " ", s)` (line 296): collapse space runs. -/
def sub2 : Str → Str
  | c1 :: c2 :: rest =>
    if c1 = ' ' ∧ c2 = ' ' then sub2 (c2 :: rest)
    else c1 :: sub2 (c2 :: rest)
  | s => s

/-- `text.replace("\r\n", "\n")`. -/
def replaceCRLF : Str → Str
  | '\r' :: '\n' :: rest => '\n' :: replaceCRLF rest
  | c :: rest => c :: replaceCRLF rest
  | [] => []

/-- `text.replace("\r", "\n")`. -/
def replaceCR (s : Str) : Str := s.map (fun c => if c = '\r' then '\n' else c)

/-- `if not text.endswith("\n"): text += "\n"`. -/
def ensureNL (s : Str) : Str :=
  if s.getLast? = some '\n' then s else s ++ ['\n']

/-- One iteration of the pre-formatted-mode detection loop (lines
168-186): a non-whitespace string or a `pre`-with-`code` or a structural
element sets `has_other_content`; a `pre` without `code` and with
non-empty stripped text becomes (the latest) `pre_content` candidate. -/
def scanChild (st : Option Node × Bool) (child : Node) : Option Node × Bool :=
  match child with
  | .text s => if pyStrip s ≠ [] then (st.1, true) else st
  | .elem tag cl href cs =>
    if tag = "pre".toList then
      if (findTagL "code".toList cs).isSome then (st.1, true)
      else if childTextS cs ≠ [] then (some (.elem tag cl href cs), st.2)
      else st
    else if tag ∈ structuralTags then (st.1, true)
    else st

/-- The structured (HTML-to-markdown) mode: decompose unwanted subtrees,
process the remaining children, clean up whitespace, fail when empty. -/
def structuredExtract (children : List Node) : Except Str Str :=
  if pyStrip (sub2 (sub1 (processTop (filterNodes children)))) = [] then
    .error "Empty guide content".toList
  else .ok (pyStrip (sub2 (sub1 (processTop (filterNodes children)))))

/-- `GameFAQsScraper._extract_content`, applied to the recognized content
region's direct children: pre-formatted mode when the scan found a lone
`pre` and nothing else significant, else structured mode. -/
def extractContent (children : List Node) : Except Str Str :=
  match children.foldl scanChild (none, false) with
  | (some pc, false) =>
    if getTextRaw pc = [] then .error "Empty guide content".toList
    else .ok (ensureNL (replaceCR (replaceCRLF (getTextRaw pc))))
  | _ => structuredExtract children

/-- A child of the content region that triggers neither the `pre_content`
candidate nor the `has_other_content` flag of the pre-formatted-mode scan:
a whitespace-only string, or an element that is not a
heading/paragraph/list/table and, if a `pre`, has no `code` descendant and
no stripped text. -/
def inertChild : Node → Prop
  | .text s => pyStrip s = []
  | .elem t _ _ cs =>
      t ∉ structuralTags
      ∧ (t = "pre".toList →
          (findTagL "code".toList cs).isSome = false ∧ childTextS cs = [])

instance instDecInertChild : (n : Node) → Decidable (inertChild n)
  | .text s => inferInstanceAs (Decidable (pyStrip s = []))
  | .elem t _ _ cs =>
    inferInstanceAs (Decidable (t ∉ structuralTags
      ∧ (t = "pre".toList →
          (findTagL "code".toList cs).isSome = false ∧ childTextS cs = [])))

theorem scanChild_inert (st : Option Node × Bool) (n : Node) (h : inertChild n) :
    scanChild st n = st := by
  cases n with
  | text s =>
    have hs : pyStrip s = [] := h
    simp [scanChild, hs]
  | elem t cl href cs =>
    obtain ⟨hstruct, hpre⟩ := h
    simp only [scanChild]
    by_cases ht : t = "pre".toList
    · obtain ⟨hcode, hempty⟩ := hpre ht
      rw [if_pos ht, if_neg (by rw [hcode]; simp), if_neg (by simp [hempty])]
    · rw [if_neg ht, if_neg hstruct]

theorem foldl_scanChild_inert (l : List Node) (st : Option Node × Bool)
    (h : ∀ n ∈ l, inertChild n) : l.foldl scanChild st = st := by
  induction l generalizing st with
  | nil => rfl
  | cons n rest ih =>
    rw [List.foldl_cons, scanChild_inert st n (h n (by simp))]
    exact ih st (fun x hx => h x (by simp [hx]))

theorem flatten_of_strip_ne (l : List Str) (h : (l.map pyStrip).flatten ≠ []) :
    l.flatten ≠ [] := by
  intro hflat
  apply h
  have hall : ∀ x ∈ l, x = [] := by
    intro x hx
    have := List.flatten_eq_nil_iff.mp hflat
    exact this x hx
  rw [List.flatten_eq_nil_iff]
  intro x hx
  obtain ⟨y, hy, hyx⟩ := List.mem_map.mp hx
  rw [hall y hy] at hyx
  simp [pyStrip] at hyx
  exact hyx

/-- The pre-formatted-mode candidate test of claim C9: a `pre` element with
no `code` descendant and non-empty stripped text. -/
def isLonePreCandidate : Node → Bool
  | .elem t _ _ cs =>
    t == "pre".toList && !(findTagL "code".toList cs).isSome && !(childTextS cs == [])
  | .text _ => false

/-- Whether a node is a heading, paragraph, list or table element (the
sibling kinds claim C9 excludes). -/
def isStructuralElem : Node → Bool
  | .elem t _ _ _ => decide (t ∈ structuralTags)
  | .text _ => false

/-- The concrete content region refuting C9 as stated: one good `pre`
block plus a bare text node sibling. -/
def cexPre : Node := .elem "pre".toList [] none [.text "X".toList]

/-- The children of the C9 counterexample region. -/
def cexChildren : List Node := [cexPre, .text "hi".toList]

/-- C9, counterexample: the region holds exactly one non-empty non-code
`pre` and no heading/paragraph/list/table sibling, yet extraction does not
return the block's literal text — the stray text node sets
`has_other_content`, so the page is converted as structured markup
(` ```\nX\n``` ` plus `hi`) instead. -/
theorem c9_preformatted_counterexample :
    (cexChildren.filter isLonePreCandidate).length = 1
    ∧ cexChildren.all (fun n => !isStructuralElem n) = true
    ∧ extractContent cexChildren
        ≠ .ok (ensureNL (replaceCR (replaceCRLF (getTextRaw cexPre)))) := by
  refine ⟨by decide, by decide, by decide⟩

/-- C9, amended: extraction returns the `pre` block's literal text (line
endings normalized, trailing newline guaranteed) for a region holding
exactly one non-empty `pre` without a `code` descendant, provided every
sibling is inert: not a heading/paragraph/list/table element, not a
non-whitespace text node, and not a `pre` with code or stripped text.
Other element kinds (e.g. `div`) and whitespace text nodes are allowed. -/
theorem c9_amended_preformatted_mode (pre post : List Node) (cl : List Str)
    (href : Option Str) (pcs : List Node)
    (hcode : (findTagL "code".toList pcs).isSome = false)
    (hne : childTextS pcs ≠ [])
    (hpre : ∀ n ∈ pre, inertChild n) (hpost : ∀ n ∈ post, inertChild n) :
    extractContent (pre ++ .elem "pre".toList cl href pcs :: post)
      = .ok (ensureNL (replaceCR (replaceCRLF ((textsL pcs).flatten)))) := by
  have hgood : scanChild (none, false) (.elem "pre".toList cl href pcs)
      = (some (.elem "pre".toList cl href pcs), false) := by
    simp only [scanChild, if_true]
    rw [if_neg (by rw [hcode]; simp), if_pos hne]
  have hfold : (pre ++ .elem "pre".toList cl href pcs :: post).foldl scanChild
      (none, false) = (some (.elem "pre".toList cl href pcs), false) := by
    rw [List.foldl_append, foldl_scanChild_inert pre _ hpre, List.foldl_cons, hgood]
    exact foldl_scanChild_inert post _ hpost
  unfold extractContent
  rw [hfold]
  have hraw : getTextRaw (.elem "pre".toList cl href pcs) = (textsL pcs).flatten := rfl
  have hflat : (textsL pcs).flatten ≠ [] := flatten_of_strip_ne _ hne
  simp only [hraw]
  rw [if_neg hflat]

/-- Inert siblings for the C9 amended witness: a whitespace text node and
an empty `div`. -/
def c9wPre : List Node := [.text "  ".toList]

/-- Trailing inert sibling for the C9 amended witness. -/
def c9wPost : List Node := [.elem "div".toList [] none []]

/-- The `pre` content of the C9 amended witness, with a CRLF line
ending. -/
def c9wPcs : List Node := [.text "HELLO\r\nWORLD".toList]

/-- Witness for the amended C9: a lone non-empty `pre` with inert siblings
extracts to its literal text with the CRLF normalized and a trailing
newline added. -/
theorem c9_amended_preformatted_mode_witness :
    (findTagL "code".toList c9wPcs).isSome = false
    ∧ childTextS c9wPcs ≠ []
    ∧ (∀ n ∈ c9wPre, inertChild n)
    ∧ (∀ n ∈ c9wPost, inertChild n)
    ∧ extractContent (c9wPre ++ .elem "pre".toList [] none c9wPcs :: c9wPost)
        = .ok (ensureNL (replaceCR (replaceCRLF ((textsL c9wPcs).flatten))))
    ∧ ensureNL (replaceCR (replaceCRLF ((textsL c9wPcs).flatten)))
        = "HELLO\nWORLD\n".toList :=
  ⟨by decide, by decide, by decide, by decide,
    c9_amended_preformatted_mode c9wPre c9wPost [] none c9wPcs
      (by decide) (by decide) (by decide) (by decide),
    by decide⟩

end GF
